import Mathlib

/-!
Verification of the Deep-CFR training pipeline of this repository
(`client/Back/update_strategy_network.py`, `client/Back/CFRTrainingEvaluator.py`).

The Python code is shallowly embedded over exact rational arithmetic (`ℚ`):
numpy float vectors become `List ℚ`, numpy reductions (`np.min`, `np.sum`)
become the corresponding list folds, and fallible numpy calls become
`Except`.  Randomness (batch-index draws, reservoir eviction draws, uniform
sampling from the buffer) is abstracted by explicit parameters so that every
function is a deterministic, executable Lean definition.
-/

namespace CFR

/-- The constant `epsilon = 1e-6` from `update_strategy_network.py` line 20. -/
def epsilon : ℚ := 1 / 1000000

/-- Embeds `np.min(advantage_vector)` on a (nonempty) vector; on the empty
vector numpy would raise, here we return a junk value `0` (all theorems about
it carry a nonemptiness hypothesis). -/
def npMin : List ℚ → ℚ
  | [] => 0
  | x :: xs => xs.foldl min x

/-- Embeds `shifted_advantages = advantage_vector - min_adv + epsilon`
(`update_strategy_network.py` line 22), the pointwise shift of the advantage
vector by its minimum plus `epsilon`. -/
def shiftedAdvantages (v : List ℚ) : List ℚ :=
  v.map (fun a => a - npMin v + epsilon)

/-- Embeds `sum_positive = np.sum(shifted_advantages)`
(`update_strategy_network.py` line 23). -/
def sumPositive (v : List ℚ) : ℚ :=
  (shiftedAdvantages v).sum

/-- Embeds the regret-matching transform of `update_strategy_network.py`
lines 20-27: shift by the minimum plus `epsilon`, normalize by the sum when
it is positive, otherwise fall back to the uniform distribution
(`np.ones_like(advantage_vector) / len(advantage_vector)`). -/
def regretMatch (v : List ℚ) : List ℚ :=
  if 0 < sumPositive v then
    (shiftedAdvantages v).map (fun a => a / sumPositive v)
  else
    List.replicate v.length (1 / (v.length : ℚ))

/-- Embeds the game-state dictionary consumed by
`CFRTrainingEvaluator.evaluate_declaration_accuracy`: `selectaction` is the
declared value, `sum` the ground-truth total, `legal_action` the admissible
declarations (read by other functions of the file, unused here). -/
structure GameState where
  legal_action : List ℚ
  selectaction : ℚ
  sum : ℚ
deriving DecidableEq, Inhabited

/-- Embeds one pass of the accumulation loop of
`evaluate_declaration_accuracy` (`CFRTrainingEvaluator.py` lines 57-81) over
the accumulator `(total_ratio, correct_declarations, overestimation_count)`:
everything happens under the guard `actual_sum > 0`. -/
def declStep (acc : ℚ × ℕ × ℕ) (state : GameState) : ℚ × ℕ × ℕ :=
  if 0 < state.sum then
    let ratio := state.selectaction / state.sum
    let overestimation := if state.sum < state.selectaction then acc.2.2 + 1 else acc.2.2
    let correct := if 4 / 5 ≤ ratio ∧ ratio ≤ 6 / 5 then acc.2.1 + 1 else acc.2.1
    (acc.1 + ratio, correct, overestimation)
  else acc

/-- Embeds the whole accumulation loop of `evaluate_declaration_accuracy`,
started from `(0, 0, 0)`. -/
def declarationCounts (sampledStates : List GameState) : ℚ × ℕ × ℕ :=
  sampledStates.foldl declStep (0, 0, 0)

/-- Embeds `CFRTrainingEvaluator.evaluate_declaration_accuracy`
(`CFRTrainingEvaluator.py` lines 47-87).  The uniform draw of
`sample_size = min(num_samples, len(test_states))` states via `random.sample`
is abstracted: the function is stated on the sampled list itself (on an empty
state list the sampled list is empty).  Returns
`(avg_ratio, accuracy, overestimation_rate)`, each divided by the full sample
size when it is positive and defaulting to `0` otherwise, exactly as in
lines 83-85. -/
def evaluate_declaration_accuracy (sampledStates : List GameState) : ℚ × ℚ × ℚ :=
  let sampleSize := sampledStates.length
  let counts := declarationCounts sampledStates
  let avgRatio := if 0 < sampleSize then counts.1 / (sampleSize : ℚ) else 0
  let accuracy := if 0 < sampleSize then (counts.2.1 : ℚ) / (sampleSize : ℚ) else 0
  let overRate := if 0 < sampleSize then (counts.2.2 : ℚ) / (sampleSize : ℚ) else 0
  (avgRatio, accuracy, overRate)

/-- Declared-to-actual ratio of one state, following the spec's wording. -/
def ratioOf (st : GameState) : ℚ := st.selectaction / st.sum

/-- States over which the code accumulates a ratio: positive actual sum. -/
def isPositiveSum (st : GameState) : Bool := decide (0 < st.sum)

/-- States the code counts as accurate: positive actual sum and ratio within
`[0.8, 1.2]`. -/
def isAccurate (st : GameState) : Bool :=
  decide (0 < st.sum) && decide (4 / 5 ≤ ratioOf st ∧ ratioOf st ≤ 6 / 5)

/-- States the code counts as overestimated: positive actual sum and declared
value strictly above it. -/
def isOverestimate (st : GameState) : Bool :=
  decide (0 < st.sum) && decide (st.sum < st.selectaction)

/-- Embeds the error outcomes relevant to the training iteration:
`valueError` is what `np.random.choice` raises on an empty range;
`emptyStatePoolError` is the error class named by the spec, included only for
comparison — no `EmptyStatePoolError` class is defined anywhere in the code. -/
inductive PyError where
  | valueError : String → PyError
  | emptyStatePoolError : PyError
deriving DecidableEq

/-- Embeds `np.random.choice(len(current_state), batch_size)`
(`CFRTrainingEvaluator.py` line 221): numpy raises `ValueError` when the
range is empty, otherwise returns `batch_size` independent uniform indices in
`[0, n)` — the random draws are abstracted by `rand`, reduced mod `n`. -/
def npRandomChoice (n batchSize : Nat) (rand : Nat → Nat) : Except PyError (List Nat) :=
  if n = 0 then
    Except.error (PyError.valueError "a must be greater than 0 unless no samples are taken")
  else
    Except.ok ((List.range batchSize).map (fun k => rand k % n))

/-- Embeds the batch-construction step of `evaluate_cfr_training`
(`CFRTrainingEvaluator.py` lines 221-222): draw `batch_size` random indices
into the state pool, then index the pool with them. -/
def drawBatchStates (currentState : List GameState) (batchSize : Nat)
    (rand : Nat → Nat) : Except PyError (List GameState) :=
  (npRandomChoice currentState.length batchSize rand).map
    (fun idxs => idxs.map (fun i => currentState.getD i default))

/-- Embeds `np.reshape(flat_data, (-1, w))` as used by the two reshape-guard
sites (`update_strategy_network.py` line 43, `CFRTrainingEvaluator.py`
line 229): the flattened data regrouped into rows of length `w`.  (numpy
raises when the total size is not divisible by `w`; the theorems below only
instantiate the exact case.) -/
def npReshapeRows (w : Nat) (flat : List ℚ) : List (List ℚ) :=
  if h : w = 0 ∨ flat = [] then []
  else flat.take w :: npReshapeRows w (flat.drop w)
termination_by flat.length
decreasing_by
  push_neg at h
  simp only [List.length_drop]
  have h1 : 0 < w := Nat.pos_of_ne_zero h.1
  have h2 : 0 < flat.length := List.length_pos.mpr h.2
  omega

/-- Embeds the two possible ranks of the numpy array
`np.array([...encoded states...])` built by the orchestrator and by
`update_strategy_network`: rank 2 when each encoded state is a flat vector,
rank 3 when each carries an extra axis. -/
inductive EncodedBatch where
  | rank2 : List (List ℚ) → EncodedBatch
  | rank3 : List (List (List ℚ)) → EncodedBatch

/-- Embeds the reshape guard (`update_strategy_network.py` lines 42-43 and
`CFRTrainingEvaluator.py` lines 228-229): a rank-3 batch is reshaped with
`reshape(-1, input_size)`; a rank-2 batch is passed through unchanged. -/
def reshapeGuard (inputSize : Nat) : EncodedBatch → List (List ℚ)
  | .rank2 rows => rows
  | .rank3 rows => npReshapeRows inputSize rows.flatten.flatten

/-- Modelled from the spec: the `ReservoirBuffer` class
(`client/Back/reservoirbuffer.py` is imported by `CFRTrainingEvaluator.py`
but is not among the sources).  Per spec §4.1 it is a capacity-bounded list
of `(encoded state, target)` pairs together with a count of items offered so
far. -/
structure ReservoirBuffer where
  buffer : List (List ℚ × List ℚ)
  capacity : Nat
  seen : Nat

/-- Modelled from the spec: `ReservoirBuffer.add` (spec §4.1) — increment the
seen-count; below capacity append unconditionally; at capacity draw a uniform
index in `[0, seen)` and overwrite that slot when the index lands in
`[0, capacity)`, otherwise discard the item.  The uniform draw is abstracted
by `draw`, reduced mod the seen-count. -/
def ReservoirBuffer.add (rb : ReservoirBuffer) (item : List ℚ × List ℚ)
    (draw : Nat) : ReservoirBuffer :=
  let seen := rb.seen + 1
  if rb.buffer.length < rb.capacity then
    { rb with buffer := rb.buffer ++ [item], seen := seen }
  else
    let idx := draw % seen
    if idx < rb.capacity then
      { rb with buffer := rb.buffer.set idx item, seen := seen }
    else
      { rb with seen := seen }

/-- Modelled from the spec: `ReservoirBuffer.sample(batch_size)` (spec §4.1)
returns `batch_size` items drawn uniformly without replacement from the
contents; which items are drawn is random and abstracted here as the first
`batch_size` items. -/
def ReservoirBuffer.sample (rb : ReservoirBuffer) (batchSize : Nat) :
    List (List ℚ × List ℚ) :=
  rb.buffer.take batchSize

/-- Embeds the arguments of the single `strategy_net.model.fit` call of
`update_strategy_network.py` lines 46-51. -/
structure FitCall where
  states : List (List ℚ)
  targets : List (List ℚ)
  epochs : Nat

/-- Embeds the double loop of `update_strategy_network.py` lines 16-31: for
every advantage observation of every infoset, add the regret-matched policy
paired with its encoded state to the strategy reservoir buffer.  The
`advantages` dict becomes an association list from infoset key to
observations; reservoir eviction draws are abstracted by `draw`. -/
def addPolicyTargets (reservoirBuffer : ReservoirBuffer)
    (advantages : List (Nat × List (List ℚ × List ℚ))) (draw : Nat → Nat) :
    ReservoirBuffer :=
  advantages.foldl
    (fun rb entry =>
      entry.2.foldl
        (fun rb obs => rb.add (obs.1, regretMatch obs.2) (draw rb.seen))
        rb)
    reservoirBuffer

/-- Embeds `update_strategy_network` (`update_strategy_network.py`
lines 4-51): add all policy targets, then either return early when the
buffer holds fewer than `batch_size` entries (`none`: the fit is skipped) or
fit the strategy network on a batch sampled from the buffer (`some`).  The
encoded states here are flat vectors, so the `np.array` of the samples is
rank 2 and the rank-3 reshape of lines 42-43 does not fire (that guard is
embedded separately as `reshapeGuard`). -/
def update_strategy_network (reservoirBuffer : ReservoirBuffer)
    (advantages : List (Nat × List (List ℚ × List ℚ)))
    (batchSize epochs : Nat) (draw : Nat → Nat) :
    ReservoirBuffer × Option FitCall :=
  let rb := addPolicyTargets reservoirBuffer advantages draw
  if rb.buffer.length < batchSize then
    (rb, none)
  else
    ⟨rb, some
      { states := (rb.sample batchSize).map Prod.fst,
        targets := (rb.sample batchSize).map Prod.snd,
        epochs := epochs }⟩

theorem foldl_min_le_init (a : ℚ) (xs : List ℚ) : xs.foldl min a ≤ a := by
  induction xs generalizing a with
  | nil => simp
  | cons x xs ih => simpa using le_trans (ih (min a x)) (min_le_left a x)

theorem foldl_min_le_mem {x : ℚ} (a : ℚ) {xs : List ℚ} (hx : x ∈ xs) :
    xs.foldl min a ≤ x := by
  induction xs generalizing a with
  | nil => cases hx
  | cons y ys ih =>
    rcases List.mem_cons.mp hx with h | h
    · subst h
      simpa using le_trans (foldl_min_le_init (min a x) ys) (min_le_right a x)
    · simpa using ih (min a y) h

theorem npMin_le {v : List ℚ} {x : ℚ} (hx : x ∈ v) : npMin v ≤ x := by
  cases v with
  | nil => cases hx
  | cons y ys =>
    rcases List.mem_cons.mp hx with h | h
    · subst h
      simpa [npMin] using foldl_min_le_init x ys
    · simpa [npMin] using foldl_min_le_mem y h

/-- Every entry of the shifted vector is at least `epsilon`. -/
theorem epsilon_le_shifted {v : List ℚ} {s : ℚ} (hs : s ∈ shiftedAdvantages v) :
    epsilon ≤ s := by
  rcases List.mem_map.mp hs with ⟨a, ha, rfl⟩
  have := npMin_le ha
  linarith

/-- The shifted sum of a nonempty advantage vector is strictly positive. -/
theorem sumPositive_pos {v : List ℚ} (hv : v ≠ []) : 0 < sumPositive v := by
  cases v with
  | nil => exact absurd rfl hv
  | cons x xs =>
    have hmem : (x - npMin (x :: xs) + epsilon) ∈ shiftedAdvantages (x :: xs) :=
      List.mem_map.mpr ⟨x, List.mem_cons_self x xs, rfl⟩
    have hpos : ∀ s ∈ shiftedAdvantages (x :: xs), 0 < s := fun s hs =>
      lt_of_lt_of_le (by norm_num [epsilon]) (epsilon_le_shifted hs)
    have hne : shiftedAdvantages (x :: xs) ≠ [] := by
      intro h
      rw [h] at hmem
      cases hmem
    exact List.sum_pos _ hpos hne

theorem sum_map_div (l : List ℚ) (s : ℚ) :
    (l.map (fun a => a / s)).sum = l.sum / s := by
  induction l with
  | nil => simp
  | cons x xs ih => simp [ih, add_div]

theorem regretMatch_length (v : List ℚ) : (regretMatch v).length = v.length := by
  rw [regretMatch]
  split <;> simp [shiftedAdvantages]

/-- C1: for every non-empty advantage vector, the regret-matching transform in
`update_strategy_network` (shift by the minimum plus `epsilon = 1e-6`, divide
by the sum, uniform fallback when the sum is not positive) emits a valid
probability simplex: every entry is non-negative and the entries sum to
exactly 1 (so in particular within any tolerance). -/
theorem regretMatch_simplex (v : List ℚ) (hv : v ≠ []) :
    (∀ p ∈ regretMatch v, 0 ≤ p) ∧ (regretMatch v).sum = 1 := by
  have hpos := sumPositive_pos hv
  rw [regretMatch, if_pos hpos]
  constructor
  · intro p hp
    rcases List.mem_map.mp hp with ⟨a, ha, rfl⟩
    have h1 : epsilon ≤ a := epsilon_le_shifted ha
    have h2 : (0 : ℚ) < epsilon := by norm_num [epsilon]
    exact div_nonneg (by linarith) hpos.le
  · rw [sum_map_div]
    exact div_self (ne_of_gt hpos)

/-- Witness for C1 at the concrete advantage vector `[3, -1]`. -/
theorem regretMatch_simplex_witness :
    ([(3 : ℚ), -1] ≠ []) ∧
      ((∀ p ∈ regretMatch [(3 : ℚ), -1], 0 ≤ p) ∧ (regretMatch [(3 : ℚ), -1]).sum = 1) :=
  ⟨by simp, regretMatch_simplex [(3 : ℚ), -1] (by simp)⟩

theorem regretMatch_getD (v : List ℚ) (i : Nat) (hi : i < v.length)
    (hpos : 0 < sumPositive v) :
    (regretMatch v).getD i 0 = (v.getD i 0 - npMin v + epsilon) / sumPositive v := by
  rw [regretMatch, if_pos hpos, shiftedAdvantages, List.map_map]
  have hi2 : i < (v.map ((fun a => a / sumPositive v) ∘ fun a => a - npMin v + epsilon)).length := by
    simpa using hi
  rw [List.getD_eq_getElem _ _ hi2, List.getElem_map, List.getD_eq_getElem _ _ hi]
  rfl

/-- C4: the regret-matching transform is strictly order-preserving on the
normalized branch: when the shifted sum is positive, a strictly larger input
entry maps to a strictly larger policy entry. -/
theorem regretMatch_strict_mono (v : List ℚ) (i j : Nat)
    (hi : i < v.length) (hj : j < v.length)
    (hpos : 0 < sumPositive v) (hij : v.getD j 0 < v.getD i 0) :
    (regretMatch v).getD j 0 < (regretMatch v).getD i 0 := by
  rw [regretMatch_getD v i hi hpos, regretMatch_getD v j hj hpos]
  exact (div_lt_div_iff_of_pos_right hpos).mpr (by linarith)

/-- Witness for C4 at the spec example `[-3, -1, -5]`: action index 1 (the
second action) gets strictly more mass than index 0, and index 0 strictly
more than index 2, matching the claimed ranking. -/
theorem regretMatch_strict_mono_witness :
    ((0 : Nat) < 3 ∧ (1 : Nat) < 3 ∧ (2 : Nat) < 3 ∧
      0 < sumPositive [(-3 : ℚ), -1, -5] ∧
      ([(-3 : ℚ), -1, -5].getD 0 0 < [(-3 : ℚ), -1, -5].getD 1 0) ∧
      ([(-3 : ℚ), -1, -5].getD 2 0 < [(-3 : ℚ), -1, -5].getD 0 0)) ∧
    (regretMatch [(-3 : ℚ), -1, -5]).getD 0 0 < (regretMatch [(-3 : ℚ), -1, -5]).getD 1 0 ∧
    (regretMatch [(-3 : ℚ), -1, -5]).getD 2 0 < (regretMatch [(-3 : ℚ), -1, -5]).getD 0 0 := by
  have hpos : 0 < sumPositive [(-3 : ℚ), -1, -5] := by
    norm_num [sumPositive, shiftedAdvantages, npMin, epsilon]
  refine ⟨⟨by norm_num, by norm_num, by norm_num, hpos, by norm_num, by norm_num⟩, ?_, ?_⟩
  · exact regretMatch_strict_mono [(-3 : ℚ), -1, -5] 1 0 (by norm_num) (by norm_num) hpos
      (by norm_num)
  · exact regretMatch_strict_mono [(-3 : ℚ), -1, -5] 0 2 (by norm_num) (by norm_num) hpos
      (by norm_num)

theorem le_foldl_min {c : ℚ} (a : ℚ) (xs : List ℚ) (ha : c ≤ a)
    (hxs : ∀ x ∈ xs, c ≤ x) : c ≤ xs.foldl min a := by
  induction xs generalizing a with
  | nil => simpa using ha
  | cons y ys ih =>
    simp only [List.foldl_cons]
    exact ih (min a y) (le_min ha (hxs y (by simp)))
      (fun x hx => hxs x (by simp [hx]))

theorem npMin_const {v : List ℚ} {c : ℚ} (hv : v ≠ []) (hc : ∀ x ∈ v, x = c) :
    npMin v = c := by
  cases v with
  | nil => exact absurd rfl hv
  | cons x xs =>
    have hx : x = c := hc x (by simp)
    refine le_antisymm ?_ ?_
    · have := npMin_le (List.mem_cons_self x xs)
      linarith [this, hx.le]
    · exact le_foldl_min x xs hx.ge (fun y hy => (hc y (by simp [hy])).ge)

/-- C8: applying the regret-matching transform to an advantage vector whose
entries are all equal yields the exact uniform distribution over the vector's
length. -/
theorem regretMatch_const (v : List ℚ) (c : ℚ) (hv : v ≠ []) (hc : ∀ x ∈ v, x = c) :
    regretMatch v = List.replicate v.length (1 / (v.length : ℚ)) := by
  have hmin : npMin v = c := npMin_const hv hc
  have hshift : shiftedAdvantages v = List.replicate v.length epsilon := by
    have hall : ∀ s ∈ shiftedAdvantages v, s = epsilon := by
      intro s hs
      rcases List.mem_map.mp hs with ⟨a, ha, rfl⟩
      rw [hc a ha, hmin]
      ring
    have h2 := List.eq_replicate_of_mem hall
    simpa [shiftedAdvantages] using h2
  have hn : (0 : ℚ) < (v.length : ℚ) := by
    exact_mod_cast List.length_pos.mpr hv
  have hsum : sumPositive v = (v.length : ℚ) * epsilon := by
    rw [sumPositive, hshift, List.sum_replicate]
    simp [nsmul_eq_mul]
  have hpos : 0 < sumPositive v := sumPositive_pos hv
  rw [regretMatch, if_pos hpos, hshift, List.map_replicate]
  congr 1
  rw [hsum]
  have heps : (0 : ℚ) < epsilon := by norm_num [epsilon]
  field_simp
  ring

/-- Witness for C8 at the spec example `[5, 5, 5]`, whose policy is the
uniform distribution `[1/3, 1/3, 1/3]`. -/
theorem regretMatch_const_witness :
    ([(5 : ℚ), 5, 5] ≠ [] ∧ (∀ x ∈ [(5 : ℚ), 5, 5], x = 5)) ∧
      regretMatch [(5 : ℚ), 5, 5] = List.replicate 3 (1 / 3) :=
  ⟨⟨by simp, by simp⟩, by
    simpa using regretMatch_const [(5 : ℚ), 5, 5] 5 (by simp) (by simp)⟩

/-- C9: for every non-empty advantage vector the shifted sum is strictly
positive under exact arithmetic, so `update_strategy_network` always takes
the normalizing branch and never the degenerate uniform fallback. -/
theorem regretMatch_no_fallback (v : List ℚ) (hv : v ≠ []) :
    0 < sumPositive v ∧
      regretMatch v = (shiftedAdvantages v).map (fun a => a / sumPositive v) := by
  have hpos := sumPositive_pos hv
  exact ⟨hpos, by rw [regretMatch, if_pos hpos]⟩

/-- Witness for C9 at the concrete all-negative vector `[-7]`. -/
theorem regretMatch_no_fallback_witness :
    ([(-7 : ℚ)] ≠ []) ∧
      (0 < sumPositive [(-7 : ℚ)] ∧
        regretMatch [(-7 : ℚ)] =
          (shiftedAdvantages [(-7 : ℚ)]).map (fun a => a / sumPositive [(-7 : ℚ)])) :=
  ⟨by simp, regretMatch_no_fallback [(-7 : ℚ)] (by simp)⟩

theorem foldl_min_map_add (c a : ℚ) (xs : List ℚ) :
    (xs.map (fun x => x + c)).foldl min (a + c) = xs.foldl min a + c := by
  induction xs generalizing a with
  | nil => simp
  | cons y ys ih =>
    simp only [List.map_cons, List.foldl_cons, min_add_add_right]
    exact ih (min a y)

theorem npMin_map_add (v : List ℚ) (c : ℚ) (hv : v ≠ []) :
    npMin (v.map (fun x => x + c)) = npMin v + c := by
  cases v with
  | nil => exact absurd rfl hv
  | cons x xs => simpa [npMin] using foldl_min_map_add c x xs

theorem shiftedAdvantages_map_add (v : List ℚ) (c : ℚ) :
    shiftedAdvantages (v.map (fun x => x + c)) = shiftedAdvantages v := by
  cases v with
  | nil => simp [shiftedAdvantages]
  | cons x xs =>
    rw [shiftedAdvantages, shiftedAdvantages, npMin_map_add _ _ (by simp),
      List.map_map]
    congr 1
    funext a
    simp only [Function.comp_apply]
    ring

theorem declStep_eq (acc : ℚ × ℕ × ℕ) (st : GameState) :
    declStep acc st =
      (acc.1 + (if isPositiveSum st = true then ratioOf st else 0),
        acc.2.1 + (if isAccurate st = true then 1 else 0),
        acc.2.2 + (if isOverestimate st = true then 1 else 0)) := by
  simp only [declStep, isPositiveSum, isAccurate, isOverestimate, ratioOf]
  by_cases h : 0 < st.sum
  · by_cases hacc : 4 / 5 ≤ st.selectaction / st.sum ∧ st.selectaction / st.sum ≤ 6 / 5 <;>
      by_cases hover : st.sum < st.selectaction <;>
        simp [h, hacc, hover]
  · simp [h]

theorem declStep_foldl (s : List GameState) (a : ℚ) (b c : ℕ) :
    s.foldl declStep (a, b, c) =
      (a + ((s.filter isPositiveSum).map ratioOf).sum,
        b + s.countP isAccurate, c + s.countP isOverestimate) := by
  induction s generalizing a b c with
  | nil => simp
  | cons st rest ih =>
    rw [List.foldl_cons, declStep_eq, ih]
    by_cases h1 : isPositiveSum st = true <;> by_cases h2 : isAccurate st = true <;>
      by_cases h3 : isOverestimate st = true <;>
        (simp only [List.filter_cons, List.countP_cons, List.map_cons, List.sum_cons,
          h1, h2, h3, if_true, if_false, ite_true, ite_false, Bool.false_eq_true,
          Prod.mk.injEq];
         exact ⟨by ring, by omega, by omega⟩)

theorem declarationCounts_eq (s : List GameState) :
    declarationCounts s =
      (((s.filter isPositiveSum).map ratioOf).sum,
        s.countP isAccurate, s.countP isOverestimate) := by
  simpa using declStep_foldl s 0 0 0

/-- C2 counterexample: on the two-state sample
`[{declared 5, actual 0}, {declared 10, actual 10}]` the code returns
average ratio `1/2` and overestimation rate `0`, while the claim predicts the
mean ratio `1` (mean over the single state with positive actual sum) and
overestimation rate `1/2` (the first state declares `5 > 0`). -/
theorem evaluate_declaration_accuracy_counterexample :
    evaluate_declaration_accuracy
        [⟨[], 5, 0⟩, ⟨[], 10, 10⟩] = (1 / 2, 1 / 2, 0) ∧
      (1 / 2 : ℚ) ≠ 1 ∧ (0 : ℚ) ≠ 1 / 2 := by
  refine ⟨?_, by norm_num, by norm_num⟩
  norm_num [evaluate_declaration_accuracy, declarationCounts, declStep]

/-- C2 amended: on a non-empty sample, `evaluate_declaration_accuracy`
returns (a) the sum of the ratios `declared/actual` over the states with
positive actual sum divided by the FULL sample size (not the mean over the
positive-sum states), (b) the fraction of states with positive actual sum and
ratio in `[0.8, 1.2]`, and (c) the fraction of states with positive actual
sum whose declared value strictly exceeds it (declarations exceeding a
non-positive actual sum are not counted). -/
theorem evaluate_declaration_accuracy_spec (s : List GameState) (hs : s ≠ []) :
    evaluate_declaration_accuracy s =
      (((s.filter isPositiveSum).map ratioOf).sum / (s.length : ℚ),
        (s.countP isAccurate : ℚ) / (s.length : ℚ),
        (s.countP isOverestimate : ℚ) / (s.length : ℚ)) := by
  have hlen : 0 < s.length := List.length_pos.mpr hs
  simp only [evaluate_declaration_accuracy, declarationCounts_eq, if_pos hlen]

/-- Witness for the amended C2 at the sample used in the counterexample. -/
theorem evaluate_declaration_accuracy_spec_witness :
    (([⟨[], 5, 0⟩, ⟨[], 10, 10⟩] : List GameState) ≠ []) ∧
      evaluate_declaration_accuracy [⟨[], 5, 0⟩, ⟨[], 10, 10⟩] =
        ((([(⟨[], 5, 0⟩ : GameState), ⟨[], 10, 10⟩].filter isPositiveSum).map ratioOf).sum
            / (([(⟨[], 5, 0⟩ : GameState), ⟨[], 10, 10⟩] : List GameState).length : ℚ),
          (([(⟨[], 5, 0⟩ : GameState), ⟨[], 10, 10⟩].countP isAccurate : ℕ) : ℚ)
            / (([(⟨[], 5, 0⟩ : GameState), ⟨[], 10, 10⟩] : List GameState).length : ℚ),
          (([(⟨[], 5, 0⟩ : GameState), ⟨[], 10, 10⟩].countP isOverestimate : ℕ) : ℚ)
            / (([(⟨[], 5, 0⟩ : GameState), ⟨[], 10, 10⟩] : List GameState).length : ℚ)) :=
  ⟨by simp, evaluate_declaration_accuracy_spec [⟨[], 5, 0⟩, ⟨[], 10, 10⟩] (by simp)⟩

/-- C5: `evaluate_declaration_accuracy` returns `(0, 0, 0)` whenever no
sampled state has positive actual sum — in particular on the empty sample —
and being a total function it raises nothing. -/
theorem evaluate_declaration_accuracy_zero (s : List GameState)
    (h : ∀ st ∈ s, ¬ 0 < st.sum) :
    evaluate_declaration_accuracy s = (0, 0, 0) := by
  have hfilter : s.filter isPositiveSum = [] := by
    simp only [List.filter_eq_nil_iff]
    intro st hst
    simp [isPositiveSum, h st hst]
  have hacc : s.countP isAccurate = 0 := by
    rw [List.countP_eq_zero]
    intro st hst
    simp [isAccurate, h st hst]
  have hover : s.countP isOverestimate = 0 := by
    rw [List.countP_eq_zero]
    intro st hst
    simp [isOverestimate, h st hst]
  simp only [evaluate_declaration_accuracy, declarationCounts_eq, hfilter, hacc, hover]
  split <;> simp

/-- Witness for C5 at the one-state sample whose actual sum is `0`. -/
theorem evaluate_declaration_accuracy_zero_witness :
    (∀ st ∈ ([⟨[], 5, 0⟩] : List GameState), ¬ 0 < st.sum) ∧
      evaluate_declaration_accuracy [⟨[], 5, 0⟩] = (0, 0, 0) := by
  have h : ∀ st ∈ ([⟨[], 5, 0⟩] : List GameState), ¬ 0 < st.sum := by
    intro st hst
    simp only [List.mem_singleton] at hst
    subst hst
    norm_num
  exact ⟨h, evaluate_declaration_accuracy_zero [⟨[], 5, 0⟩] h⟩

/-- C3 counterexample: with an empty state pool, the training iteration's
batch draw fails with numpy's `ValueError`, which is not an
`EmptyStatePoolError` — no such class exists in the code. -/
theorem drawBatchStates_empty_counterexample :
    drawBatchStates [] 32 (fun _ => 0) =
        Except.error
          (PyError.valueError "a must be greater than 0 unless no samples are taken") ∧
      PyError.valueError "a must be greater than 0 unless no samples are taken" ≠
        PyError.emptyStatePoolError := by
  refine ⟨rfl, ?_⟩
  intro h
  cases h

/-- C3 amended: when the self-play state pool is empty the training iteration
does fail fast — the batch-index draw errors out and the error propagates to
the caller — but the error is the `ValueError` numpy raises, not a dedicated
`EmptyStatePoolError`; on a non-empty pool the draw succeeds. -/
theorem drawBatchStates_error_iff (s : List GameState) (batchSize : Nat)
    (rand : Nat → Nat) :
    drawBatchStates s batchSize rand =
        Except.error
          (PyError.valueError "a must be greater than 0 unless no samples are taken")
      ↔ s = [] := by
  rcases s with _ | ⟨st, rest⟩ <;>
    simp [drawBatchStates, npRandomChoice, Except.map]

theorem npReshapeRows_join (w : Nat) (hw : 0 < w) (rs : List (List ℚ))
    (hrs : ∀ r ∈ rs, r.length = w) : npReshapeRows w rs.flatten = rs := by
  induction rs with
  | nil =>
    rw [npReshapeRows]
    simp
  | cons r rest ih =>
    have hr : r.length = w := hrs r (by simp)
    have hne : r ++ rest.flatten ≠ [] := by
      intro hcontra
      have := congrArg List.length hcontra
      simp [hr] at this
      omega
    rw [List.flatten_cons, npReshapeRows, dif_neg (by push_neg; exact ⟨by omega, hne⟩),
      List.take_left' hr, List.drop_left' hr]
    rw [ih (fun x hx => hrs x (by simp [hx]))]

theorem flatten_length_of_singletons (rows : List (List (List ℚ)))
    (hrows : ∀ r ∈ rows, ∃ v, r = [v]) :
    rows.flatten.length = rows.length := by
  induction rows with
  | nil => simp
  | cons r rest ih =>
    rcases hrows r (by simp) with ⟨v, rfl⟩
    simp only [List.flatten_cons, List.singleton_append, List.length_cons]
    rw [ih (fun x hx => hrows x (by simp [hx]))]

/-- C7: reshape guard.  Whenever a rank-3 encoded batch has a singleton
middle axis — every row is `[v]` with `v` of length `input_size > 0`, i.e.
shape `(n, 1, input_size)` — the guard reshapes it to the 2-D batch of the
rows' contents, of shape `(n, input_size)`; rank-2 batches pass through
unchanged. -/
theorem reshapeGuard_spec (inputSize : Nat) (rows : List (List (List ℚ)))
    (hpos : 0 < inputSize)
    (hrows : ∀ r ∈ rows, ∃ v, r = [v] ∧ v.length = inputSize) :
    reshapeGuard inputSize (.rank3 rows) = rows.flatten ∧
      (reshapeGuard inputSize (.rank3 rows)).length = rows.length ∧
      (∀ row ∈ reshapeGuard inputSize (.rank3 rows), row.length = inputSize) ∧
      (∀ m : List (List ℚ), reshapeGuard inputSize (.rank2 m) = m) := by
  have hjoin : ∀ x ∈ rows.flatten, x.length = inputSize := by
    intro x hx
    rcases List.mem_flatten.mp hx with ⟨r, hr, hxr⟩
    rcases hrows r hr with ⟨v, rfl, hv⟩
    rcases List.mem_singleton.mp hxr with rfl
    exact hv
  have hmain : reshapeGuard inputSize (.rank3 rows) = rows.flatten := by
    rw [reshapeGuard]
    exact npReshapeRows_join inputSize hpos rows.flatten hjoin
  refine ⟨hmain, ?_, ?_, fun m => rfl⟩
  · rw [hmain]
    exact flatten_length_of_singletons rows
      (fun r hr => (hrows r hr).imp (fun v h => h.1))
  · rw [hmain]
    exact hjoin

/-- Witness for C7 at the concrete rank-3 batch `[[[1, 2]], [[3, 4]]]` of
shape `(2, 1, 2)` with `input_size = 2`. -/
theorem reshapeGuard_spec_witness :
    ((0 : Nat) < 2 ∧
      (∀ r ∈ [[[(1 : ℚ), 2]], [[3, 4]]], ∃ v, r = [v] ∧ v.length = 2)) ∧
      (reshapeGuard 2 (.rank3 [[[(1 : ℚ), 2]], [[3, 4]]]) =
          [[[(1 : ℚ), 2]], [[3, 4]]].flatten ∧
        (reshapeGuard 2 (.rank3 [[[(1 : ℚ), 2]], [[3, 4]]])).length =
          ([[[(1 : ℚ), 2]], [[3, 4]]] : List (List (List ℚ))).length ∧
        (∀ row ∈ reshapeGuard 2 (.rank3 [[[(1 : ℚ), 2]], [[3, 4]]]),
          row.length = 2) ∧
        (∀ m : List (List ℚ), reshapeGuard 2 (.rank2 m) = m)) := by
  have hrows : ∀ r ∈ [[[(1 : ℚ), 2]], [[3, 4]]], ∃ v, r = [v] ∧ v.length = 2 := by
    intro r hr
    rcases List.mem_cons.mp hr with rfl | hr
    · exact ⟨[1, 2], rfl, rfl⟩
    · rcases List.mem_singleton.mp hr with rfl
      exact ⟨[3, 4], rfl, rfl⟩
  exact ⟨⟨by norm_num, hrows⟩,
    reshapeGuard_spec 2 [[[(1 : ℚ), 2]], [[3, 4]]] (by norm_num) hrows⟩

/-- C6: `update_strategy_network` skips the strategy-network fit exactly when
the reservoir buffer holds fewer than `batch_size` entries after this call's
policy targets were added; otherwise the fit is performed on a batch sampled
from the buffer — and being a total function it returns without raising in
both cases, so the caller's iteration completes. -/
theorem update_strategy_network_skip_iff (rb : ReservoirBuffer)
    (advantages : List (Nat × List (List ℚ × List ℚ)))
    (batchSize epochs : Nat) (draw : Nat → Nat) :
    (update_strategy_network rb advantages batchSize epochs draw).2 = none ↔
      (update_strategy_network rb advantages batchSize epochs draw).1.buffer.length
        < batchSize := by
  rw [update_strategy_network]
  by_cases h : (addPolicyTargets rb advantages draw).buffer.length < batchSize <;>
    simp [h]

/-- C10: the regret-matching transform is translation-invariant under exact
arithmetic: adding the same constant to every entry of the advantage vector
leaves the emitted policy unchanged, because the shift by the minimum cancels
the translation. -/
theorem regretMatch_translation_invariant (v : List ℚ) (c : ℚ) :
    regretMatch (v.map (fun a => a + c)) = regretMatch v := by
  simp only [regretMatch, sumPositive, shiftedAdvantages_map_add, List.length_map]

end CFR
